import Mathlib

/-!
Verification of the pydle async core (src/pydle/async.py): the `parallel`
future combinator, the `coroutine` generator trampoline, and the `EventLoop`
reactor (descriptor registration, dispatch, periodic timers).

Modelling conventions of this shallow embedding:
* A settled future is represented by its outcome `Except eps alpha`; a future
  object held by `parallel` is represented by an identity (a `Nat`), since
  the Python code keys its pending list and OrderedDict by object identity.
* `FutureState` mirrors the three states of a `tornado` future: pending,
  resolved with a value, failed with an exception.
* Python exceptions escaping a callback are modelled by an explicit error
  component in the callback's return value (`Option (HandlerErr eps)`).
-/

namespace Pydle

/-- State of a (tornado) future: pending, resolved with a value, or failed
with an exception. -/
inductive FutureState (α ε : Type) where
  | pending
  | resolved (v : α)
  | failed (e : ε)
deriving DecidableEq

/-- Exceptions that can escape the `done` completion handler of `parallel`:
the `ValueError` from `futures.remove` on an absent element, or the exception
re-raised by the unconditional `future.result()` access. -/
inductive HandlerErr (ε : Type) where
  | valueError
  | propagated (e : ε)
deriving DecidableEq

/-- First-occurrence key deduplication, as performed by
`collections.OrderedDict(zip(futures, itertools.repeat(None)))`: a duplicated
key keeps the position of its first occurrence. -/
def dedupKeys : List Nat → List Nat
  | [] => []
  | f :: fs => f :: (dedupKeys fs).filter (fun y => y ≠ f)

/-- OrderedDict item assignment `results[future] = v`: an existing key is
updated in place, a new key is appended at the end. -/
def setVal {α : Type} (m : List (Nat × Option α)) (k : Nat) (v : Option α) :
    List (Nat × Option α) :=
  if m.any (fun p => p.1 == k) then
    m.map (fun p => if p.1 = k then (k, v) else p)
  else m ++ [(k, v)]

/-- State of one `parallel(*futures)` call: the mutable local list `futures`
(pending, one entry per input occurrence), the OrderedDict `results`
(one entry per distinct input, values initialised to `None`), and the
`result_future` returned to the caller. -/
structure ParState (α ε : Type) where
  pending : List Nat
  results : List (Nat × Option α)
  resultFuture : FutureState (List (Option α)) ε
deriving DecidableEq

/-- The state set up by the body of `parallel(*futures)` before any input
settles: `results = OrderedDict(zip(futures, repeat(None)))`,
`futures = list(futures)`, and a fresh pending `result_future`. -/
def parallelInit (α ε : Type) (futures : List Nat) : ParState α ε :=
  { pending := futures
  , results := (dedupKeys futures).map (fun f => (f, none))
  , resultFuture := .pending }

/-- The per-future completion handler `done(future)` of `parallel`, invoked
with the settled future's identity `f` and outcome. `futures.remove(future)`
raises `ValueError` when `f` is absent; otherwise the first occurrence is
removed, then `future.result()` either re-raises the future's exception
(escaping the handler, `results` untouched) or yields the result, which is
stored; when the pending list empties, `result_future.set_result` is called
with the ordered value list. -/
def done {α ε : Type} (s : ParState α ε) (f : Nat) (outcome : Except ε α) :
    ParState α ε × Option (HandlerErr ε) :=
  if f ∈ s.pending then
    match outcome with
    | .error e => ({ s with pending := s.pending.erase f }, some (.propagated e))
    | .ok r =>
      let pending' := s.pending.erase f
      let results' := setVal s.results f (some r)
      if pending' = [] then
        ({ pending := pending', results := results',
           resultFuture := .resolved (results'.map Prod.snd) }, none)
      else
        ({ s with pending := pending', results := results' }, none)
  else (s, some .valueError)

/-- Run a sequence of settlement notifications against a `parallel` state:
each future identity in the list settles (with the outcome given by `out`)
and its registered `done` callback runs. Returns the final state together
with the list of exceptions that escaped the handler. -/
def runSettle {α ε : Type} (out : Nat → Except ε α) :
    ParState α ε → List Nat → ParState α ε × List (HandlerErr ε)
  | s, [] => (s, [])
  | s, f :: fs =>
    let step := done s f (out f)
    let rest := runSettle out step.1 fs
    (rest.1, step.2.elim rest.2 (fun e => e :: rest.2))

/-! Helper lemmas about `dedupKeys` and `setVal`. -/

theorem mem_dedupKeys (x : Nat) : ∀ (l : List Nat), x ∈ dedupKeys l ↔ x ∈ l := by
  intro l
  induction l with
  | nil => simp [dedupKeys]
  | cons f fs ih =>
    by_cases hx : x = f <;> simp [dedupKeys, List.mem_filter, hx, ih]

theorem nodup_dedupKeys : ∀ (l : List Nat), (dedupKeys l).Nodup := by
  intro l
  induction l with
  | nil => simp [dedupKeys]
  | cons f fs ih =>
    refine List.nodup_cons.mpr ⟨?_, ih.filter _⟩
    intro hmem
    have := (List.mem_filter.mp hmem).2
    simp at this

theorem dedupKeys_eq_self {l : List Nat} (h : l.Nodup) : dedupKeys l = l := by
  induction l with
  | nil => rfl
  | cons f fs ih =>
    rcases List.nodup_cons.mp h with ⟨hf, hfs⟩
    rw [dedupKeys, ih hfs, List.filter_eq_self.mpr]
    intro a ha
    simp only [decide_eq_true_eq]
    intro haf
    exact hf (haf ▸ ha)

theorem length_dedupKeys_le : ∀ (l : List Nat), (dedupKeys l).length ≤ l.length := by
  intro l
  induction l with
  | nil => simp [dedupKeys]
  | cons f fs ih =>
    simp only [dedupKeys, List.length_cons]
    exact Nat.succ_le_succ (Nat.le_trans (List.length_filter_le _ _) ih)

theorem length_filter_ne_lt {a : Nat} : ∀ {l : List Nat}, a ∈ l →
    (l.filter (fun y => y ≠ a)).length < l.length := by
  intro l
  induction l with
  | nil => intro h; cases h
  | cons b t ih =>
    intro hmem
    by_cases hb : b = a
    · subst hb
      have h1 : (b :: t).filter (fun y => y ≠ b) = t.filter (fun y => y ≠ b) := by
        simp [List.filter_cons]
      rw [h1]
      exact Nat.lt_succ_of_le (List.length_filter_le _ _)
    · have hat : a ∈ t := by
        rcases List.mem_cons.mp hmem with h | h
        · exact absurd h.symm hb
        · exact h
      have h1 : (b :: t).filter (fun y => y ≠ a) = b :: t.filter (fun y => y ≠ a) := by
        simp [List.filter_cons, hb]
      rw [h1, List.length_cons, List.length_cons]
      exact Nat.succ_lt_succ (ih hat)

theorem length_dedupKeys_lt {l : List Nat} (h : ¬ l.Nodup) :
    (dedupKeys l).length < l.length := by
  induction l with
  | nil => exact absurd List.nodup_nil h
  | cons f fs ih =>
    by_cases hf : f ∈ fs
    · have hfd : f ∈ dedupKeys fs := (mem_dedupKeys f fs).mpr hf
      have h1 : ((dedupKeys fs).filter (fun y => y ≠ f)).length < (dedupKeys fs).length :=
        length_filter_ne_lt hfd
      have h2 := length_dedupKeys_le fs
      simp only [dedupKeys, List.length_cons]
      omega
    · have hnfs : ¬ fs.Nodup := by
        intro hn
        exact h (List.nodup_cons.mpr ⟨hf, hn⟩)
      have hfd : f ∉ dedupKeys fs := fun hc => hf ((mem_dedupKeys f fs).mp hc)
      have heq : (dedupKeys fs).filter (fun y => y ≠ f) = dedupKeys fs := by
        apply List.filter_eq_self.mpr
        intro a ha
        simp only [decide_eq_true_eq]
        intro haf
        exact hfd (haf ▸ ha)
      simp only [dedupKeys, heq, List.length_cons]
      exact Nat.succ_lt_succ (ih hnfs)

theorem setVal_map {α : Type} (l : List Nat) (g : Nat → Option α) (k : Nat)
    (v : Option α) (hk : k ∈ l) :
    setVal (l.map (fun x => (x, g x))) k v
      = l.map (fun x => (x, if x = k then v else g x)) := by
  have hany : (l.map (fun x => (x, g x))).any (fun p => p.1 == k) = true := by
    simp only [List.any_eq_true, List.mem_map]
    exact ⟨(k, g k), ⟨k, hk, rfl⟩, by simp⟩
  simp only [setVal, hany, if_true, List.map_map]
  apply List.map_congr_left
  intro x _
  by_cases hx : x = k <;> simp [Function.comp, hx]

/-! Stepping equations for `done` and `runSettle`. -/

theorem done_ok_of_mem {α ε : Type} (s : ParState α ε) (f : Nat) (r : α)
    (hf : f ∈ s.pending) :
    done s f (.ok r)
      = if s.pending.erase f = [] then
          ({ pending := s.pending.erase f
           , results := setVal s.results f (some r)
           , resultFuture := .resolved ((setVal s.results f (some r)).map Prod.snd) },
           none)
        else
          ({ s with
              pending := s.pending.erase f,
              results := setVal s.results f (some r) }, none) := by
  simp [done, hf]

theorem done_error_of_mem {α ε : Type} (s : ParState α ε) (f : Nat) (e : ε)
    (hf : f ∈ s.pending) :
    done s f (.error e)
      = ({ s with pending := s.pending.erase f }, some (.propagated e)) := by
  simp [done, hf]

theorem runSettle_nil {α ε : Type} (out : Nat → Except ε α) (s : ParState α ε) :
    runSettle out s [] = (s, []) := rfl

theorem runSettle_cons {α ε : Type} (out : Nat → Except ε α) (s : ParState α ε)
    (f : Nat) (fs : List Nat) :
    runSettle out s (f :: fs)
      = ((runSettle out (done s f (out f)).1 fs).1,
         (done s f (out f)).2.elim (runSettle out (done s f (out f)).1 fs).2
           (fun e => e :: (runSettle out (done s f (out f)).1 fs).2)) := rfl

/-- Core run lemma: if every remaining settlement is a success, running the
remaining notifications from an in-flight `parallel` state resolves the
result future with the results ordered by the OrderedDict key order, and no
exception escapes any handler invocation. -/
theorem runSettle_resolves {α ε : Type} (inputs : List Nat) (res : Nat → α)
    (out : Nat → Except ε α) (hout : ∀ f ∈ inputs, out f = .ok (res f)) :
    ∀ (rem : List Nat) (s : ParState α ε) (g : Nat → Option α),
      rem ≠ [] →
      s.pending.Perm rem →
      (∀ f ∈ rem, f ∈ inputs) →
      (∀ f ∈ dedupKeys inputs, f ∉ rem → g f = some (res f)) →
      s.results = (dedupKeys inputs).map (fun f => (f, g f)) →
      (runSettle out s rem).1.resultFuture
        = .resolved ((dedupKeys inputs).map (fun f => some (res f)))
      ∧ (runSettle out s rem).2 = [] := by
  intro rem
  induction rem with
  | nil => intro s g hne _ _ _ _; exact absurd rfl hne
  | cons f tail ih =>
    intro s g _ hperm hsub hg hres
    have hfpend : f ∈ s.pending := hperm.mem_iff.mpr (List.mem_cons_self f tail)
    have hfin : f ∈ inputs := hsub f (List.mem_cons_self f tail)
    have hfded : f ∈ dedupKeys inputs := (mem_dedupKeys f inputs).mpr hfin
    have hout_f : out f = .ok (res f) := hout f hfin
    have hperm' : (s.pending.erase f).Perm tail := by
      have h := hperm.erase f
      rwa [List.erase_cons_head] at h
    have hres' : setVal s.results f (some (res f))
        = (dedupKeys inputs).map (fun x => (x, if x = f then some (res f) else g x)) := by
      rw [hres]; exact setVal_map _ g f _ hfded
    cases tail with
    | nil =>
      have hpend0 : s.pending.erase f = [] := List.Perm.eq_nil hperm'
      rw [runSettle_cons, hout_f, done_ok_of_mem s f (res f) hfpend, if_pos hpend0]
      simp only [runSettle_nil, Option.elim]
      refine ⟨?_, by trivial⟩
      rw [hres', List.map_map]
      congr 1
      apply List.map_congr_left
      intro x hx
      by_cases hxf : x = f
      · simp [Function.comp, hxf]
      · have hxg : g x = some (res x) := hg x hx (by simp [hxf])
        simp [Function.comp, hxf, hxg]
    | cons t ts =>
      have hpne : s.pending.erase f ≠ [] := by
        intro h0
        have h1 : (t :: ts) = [] := List.Perm.eq_nil (h0 ▸ hperm').symm
        cases h1
      rw [runSettle_cons, hout_f, done_ok_of_mem s f (res f) hfpend, if_neg hpne]
      simp only [Option.elim]
      exact ih { s with
                  pending := s.pending.erase f,
                  results := setVal s.results f (some (res f)) }
        (fun x => if x = f then some (res f) else g x)
        (List.cons_ne_nil t ts) hperm'
        (fun x hx => hsub x (List.mem_cons_of_mem f hx))
        (by
          intro x hx hnx
          by_cases hxf : x = f
          · simp [hxf]
          · have : x ∉ f :: t :: ts := by
              intro hc
              rcases List.mem_cons.mp hc with h | h
              · exact hxf h
              · exact hnx h
            simp [hxf, hg x hx this])
        hres'

/-- Claim C3: with pairwise-distinct input futures that all resolve
successfully, in any settlement order (any permutation `ev` of the inputs),
the future returned by `parallel` resolves to the list of results ordered by
input position. Each list slot holds `some (res f)`: the OrderedDict value
slot, initialised to `None`, has been filled with that input's result. -/
theorem parallel_ordered_results {α ε : Type} (inputs ev : List Nat) (res : Nat → α)
    (hnd : inputs.Nodup) (hne : inputs ≠ []) (hperm : ev.Perm inputs) :
    (runSettle (fun f => .ok (res f)) (parallelInit α ε inputs) ev).1.resultFuture
      = .resolved (inputs.map (fun f => some (res f))) := by
  have hded : dedupKeys inputs = inputs := dedupKeys_eq_self hnd
  have hevne : ev ≠ [] := by
    intro h
    subst h
    exact hne (List.Perm.eq_nil hperm.symm)
  have h := runSettle_resolves inputs res (fun f => .ok (res f)) (fun f _ => rfl) ev
      (parallelInit α ε inputs) (fun _ => none) hevne
      (by simpa [parallelInit] using hperm.symm)
      (fun f hf => hperm.mem_iff.mp hf)
      (fun f hf hnf =>
        absurd (hperm.mem_iff.mpr ((mem_dedupKeys f inputs).mp hf)) hnf)
      rfl
  rw [h.1, hded]

/-- Claim C10: with a duplicated input future, the pending list and the
results OrderedDict are keyed by future identity, so once every input
resolves the output list has one entry per distinct input (in first-occurrence
order) and is strictly shorter than the input count. Each occurrence of a
duplicated future registers its own `done` callback, so `ev` settles one
notification per input occurrence. -/
theorem parallel_duplicate_inputs {α ε : Type} (inputs ev : List Nat) (res : Nat → α)
    (hdup : ¬ inputs.Nodup) (hperm : ev.Perm inputs) :
    (runSettle (fun f => .ok (res f)) (parallelInit α ε inputs) ev).1.resultFuture
      = .resolved ((dedupKeys inputs).map (fun f => some (res f)))
    ∧ (dedupKeys inputs).length < inputs.length := by
  have hne : inputs ≠ [] := by
    rintro rfl
    exact hdup List.nodup_nil
  have hevne : ev ≠ [] := by
    intro h
    subst h
    exact hne (List.Perm.eq_nil hperm.symm)
  have h := runSettle_resolves inputs res (fun f => .ok (res f)) (fun f _ => rfl) ev
      (parallelInit α ε inputs) (fun _ => none) hevne
      (by simpa [parallelInit] using hperm.symm)
      (fun f hf => hperm.mem_iff.mp hf)
      (fun f hf hnf =>
        absurd (hperm.mem_iff.mpr ((mem_dedupKeys f inputs).mp hf)) hnf)
      rfl
  exact ⟨h.1, length_dedupKeys_lt hdup⟩

/-! Exception propagation through the `done` handler (there is no catch in
`done`, and `result_future.set_exception` is never called by `parallel`). -/

theorem done_resultFuture_cases {α ε : Type} (s : ParState α ε) (f : Nat)
    (o : Except ε α) :
    (done s f o).1.resultFuture = s.resultFuture
    ∨ ∃ l, (done s f o).1.resultFuture = .resolved l := by
  by_cases hf : f ∈ s.pending
  · cases o with
    | error e => rw [done_error_of_mem s f e hf]; exact Or.inl rfl
    | ok r =>
      rw [done_ok_of_mem s f r hf]
      by_cases h0 : s.pending.erase f = []
      · rw [if_pos h0]; exact Or.inr ⟨_, rfl⟩
      · rw [if_neg h0]; exact Or.inl rfl
  · simp [done, hf]

theorem done_pending_of_mem {α ε : Type} (s : ParState α ε) (f : Nat)
    (o : Except ε α) (hf : f ∈ s.pending) :
    (done s f o).1.pending = s.pending.erase f := by
  cases o with
  | error e => rw [done_error_of_mem s f e hf]
  | ok r =>
    rw [done_ok_of_mem s f r hf]
    by_cases h0 : s.pending.erase f = []
    · rw [if_pos h0]
    · rw [if_neg h0]

theorem runSettle_not_failed {α ε : Type} (out : Nat → Except ε α) :
    ∀ (rem : List Nat) (s : ParState α ε) (e' : ε),
      s.resultFuture ≠ .failed e' →
      (runSettle out s rem).1.resultFuture ≠ .failed e' := by
  intro rem
  induction rem with
  | nil => intro s e' h; simpa [runSettle_nil] using h
  | cons f fs ih =>
    intro s e' h
    rw [runSettle_cons]
    apply ih
    rcases done_resultFuture_cases s f (out f) with hc | ⟨l, hc⟩
    · rw [hc]; exact h
    · rw [hc]; simp

theorem runSettle_escapes {α ε : Type} (out : Nat → Except ε α) (fi : Nat) (e : ε)
    (hout : out fi = .error e) :
    ∀ (rem : List Nat) (s : ParState α ε),
      s.pending.Perm rem → fi ∈ rem →
      HandlerErr.propagated e ∈ (runSettle out s rem).2 := by
  intro rem
  induction rem with
  | nil => intro s _ hfi; cases hfi
  | cons f fs ih =>
    intro s hperm hfi
    have hfpend : f ∈ s.pending := hperm.mem_iff.mpr (List.mem_cons_self f fs)
    have hperm' : (s.pending.erase f).Perm fs := by
      have h := hperm.erase f
      rwa [List.erase_cons_head] at h
    by_cases hf : f = fi
    · subst hf
      rw [runSettle_cons, hout, done_error_of_mem s f e hfpend]
      simp only [Option.elim]
      exact List.mem_cons_self _ _
    · have hfifs : fi ∈ fs := by
        rcases List.mem_cons.mp hfi with h | h
        · exact absurd h.symm hf
        · exact h
      have hpend' := done_pending_of_mem s f (out f) hfpend
      have hmem := ih (done s f (out f)).1 (by rw [hpend']; exact hperm') hfifs
      rw [runSettle_cons]
      cases hsnd : (done s f (out f)).2 with
      | none => simpa [Option.elim, hsnd] using hmem
      | some x =>
        simp only [Option.elim, hsnd]
        exact List.mem_cons_of_mem x hmem

/-- Claim C1: if any input future settles with an exception, that exception
escapes the internal `done` completion handler (the unconditional
`future.result()` access re-raises it), and the join future returned by
`parallel` is never failed with it: `result_future.set_exception` is never
called anywhere in `parallel`. The list `ev` carries one settlement
notification per input occurrence, in any order. -/
theorem parallel_failure_escapes {α ε : Type} (inputs ev : List Nat)
    (out : Nat → Except ε α) (fi : Nat) (e : ε)
    (hperm : ev.Perm inputs) (hfi : fi ∈ inputs) (hout : out fi = .error e) :
    HandlerErr.propagated e ∈ (runSettle out (parallelInit α ε inputs) ev).2
    ∧ ∀ e', (runSettle out (parallelInit α ε inputs) ev).1.resultFuture
        ≠ .failed e' := by
  constructor
  · exact runSettle_escapes out fi e hout ev (parallelInit α ε inputs)
      (by simpa [parallelInit] using hperm.symm) (hperm.mem_iff.mpr hfi)
  · intro e'
    exact runSettle_not_failed out ev (parallelInit α ε inputs) e'
      (by simp [parallelInit])

/-- Witness for C1 at a concrete input: a single future failing with the unit
exception; the exception escapes the handler and the join future is not
failed with it. -/
theorem parallel_failure_escapes_witness :
    HandlerErr.propagated () ∈
      (runSettle (α := Nat) (fun _ => .error ()) (parallelInit Nat Unit [0]) [0]).2
    ∧ (runSettle (α := Nat) (fun _ => .error ())
        (parallelInit Nat Unit [0]) [0]).1.resultFuture ≠ .failed () := by
  have h := parallel_failure_escapes (α := Nat) (ε := Unit) [0] [0]
      (fun _ => .error ()) 0 () (List.Perm.refl _) (by decide) rfl
  exact ⟨h.1, h.2 ()⟩

/-- Claim C2 (code bug): `parallel()` with zero input futures returns a
future that is never settled. `result_future.set_result` is only called
inside the per-future `done` callback; with no inputs, no callback is ever
registered, so the settlement event list is empty and the result future
stays pending forever — while the spec requires immediate completion with an
empty list. -/
theorem parallel_empty_never_settles :
    (parallelInit Nat Unit []).resultFuture = .pending
    ∧ (runSettle (fun f => .ok f) (parallelInit Nat Unit []) []).1.resultFuture
        = .pending := ⟨rfl, rfl⟩

/-- Witness for C3 at a concrete input: three futures settling in the order
f3, f1, f2 still produce the input-ordered result list. -/
theorem parallel_ordered_results_witness :
    (runSettle (ε := Unit) (fun f => .ok f) (parallelInit Nat Unit [0, 1, 2])
        [2, 0, 1]).1.resultFuture
      = .resolved [some 0, some 1, some 2] := by
  have h := parallel_ordered_results (ε := Unit) [0, 1, 2] [2, 0, 1] (fun f => f)
      (by decide) (by decide) (by decide)
  simpa using h

/-- Witness for C10 at a concrete input: the same future passed twice yields
a single-entry result list, shorter than the input count of two. -/
theorem parallel_duplicate_inputs_witness :
    (runSettle (ε := Unit) (fun f => .ok f) (parallelInit Nat Unit [5, 5])
        [5, 5]).1.resultFuture = .resolved [some 5]
    ∧ (dedupKeys [5, 5]).length < 2 := by
  have h := parallel_duplicate_inputs (ε := Unit) [5, 5] [5, 5] (fun f => f)
      (by decide) (List.Perm.refl _)
  refine ⟨?_, h.2⟩
  have h1 := h.1
  simpa [dedupKeys] using h1

/-! Coroutine trampoline model (the `coroutine` decorator).

The wrapped generator is embedded as a finitely-branching program `Gen`:
it either terminates (`StopIteration` with a return value), raises an
uncaught exception, or yields an awaited value together with the
continuation that `gen.send` (on a resolved value) or `gen.throw` (on an
exception) resumes. A future awaited by the trampoline is represented by
its eventual settlement outcome; `add_done_callback` plus the later
settlement collapse into direct recursion, and awaiting a future that never
settles leaves the outer future pending. -/

/-- Python values flowing through the trampoline; `vnone` is `None`, and the
list produced by the parallel join is a `vlist`. -/
inductive Val where
  | vnone
  | num (n : Int)
  | vlist (l : List Val)

/-- Reading a slot of the parallel join's OrderedDict value list: a slot
never written holds Python `None`. -/
def fromOpt (o : Option Val) : Val := o.getD .vnone

/-- A value yielded by the generator: a single future, or a tuple of
futures, each represented by its eventual settlement outcome. -/
inductive Yielded (ε : Type) where
  | single (f : Except ε Val)
  | tup (fs : List (Except ε Val))

/-- A generator-shaped computation: `ret` is normal termination
(`StopIteration` carrying the return value), `raise` an uncaught exception,
and `yield` hands the trampoline an awaited value plus the continuation
resumed via `gen.send` / `gen.throw`. -/
inductive Gen (ε : Type) where
  | ret (r : Val)
  | raise (e : ε)
  | yield (y : Yielded ε) (k : Except ε Val → Gen ε)

/-- The settled outcome of `parallel(*fs)` over a tuple of futures, obtained
by running the `parallel` model over fresh distinct identities (tuple slots),
each settling with its element's outcome, in slot order. A join whose result
future never settles (see the empty-input and trailing-failure behaviours of
`parallel`) yields `none`: the trampoline then waits forever. -/
def joinOutcome {ε : Type} (fs : List (Except ε Val)) : Option (Except ε Val) :=
  match (runSettle (fun i => fs.getD i (.ok .vnone))
      (parallelInit Val ε (List.range fs.length))
      (List.range fs.length)).1.resultFuture with
  | .pending => none
  | .resolved l => some (.ok (.vlist (l.map fromOpt)))
  | .failed e => some (.error e)

/-- The conversion applied by `wrapper` to every yielded value, first or
later, before `add_done_callback` is attached:
`if isinstance(result, tuple): result = parallel(*result)`. The returned
option is the settled outcome of the future the trampoline then awaits
(`none` when that future never settles). -/
def convert {ε : Type} (y : Yielded ε) : Option (Except ε Val) :=
  match y with
  | .single f => some f
  | .tup fs => joinOutcome fs

/-- The outer future produced by `wrapper`: the trampoline repeatedly awaits
the converted yielded value, resumes the generator with `gen.send` on a
result or `gen.throw` on an exception (both captured in the continuation's
argument), settles the outer future on `StopIteration` or an uncaught
exception, and stays pending if an awaited future never settles. -/
def runGen {ε : Type} : Gen ε → FutureState Val ε
  | .ret r => .resolved r
  | .raise e => .failed e
  | .yield y k =>
    match convert y with
    | none => .pending
    | some o => runGen (k o)

/-- A run of the generator in which every yielded future resolves
successfully, the generator is resumed with each resolved value, and it
finally terminates normally returning `r`. -/
inductive ResolvesTo {ε : Type} : Gen ε → Val → Prop where
  | ret (r : Val) : ResolvesTo (.ret r) r
  | yield (v : Val) (k : Except ε Val → Gen ε) (r : Val) :
      ResolvesTo (k (.ok v)) r →
      ResolvesTo (.yield (.single (.ok v)) k) r

/-- Claim C4: for a generator whose yielded futures all resolve, the wrapper
returns a single future that resolves to the generator's return value: each
settlement resumes the generator with the resolved value, and normal
termination resolves the outer future. -/
theorem coroutine_resolves_value {ε : Type} (g : Gen ε) (r : Val)
    (h : ResolvesTo g r) : runGen g = .resolved r := by
  induction h with
  | ret r => rfl
  | yield v k r _ ih => simpa [runGen, convert] using ih

/-- Continuation of the example coroutine: resumed with the integer `n`, it
returns `n + 1`. -/
def k5 : Except Unit Val → Gen Unit :=
  fun o => match o with
  | .ok (.num n) => .ret (.num (n + 1))
  | _ => .raise ()

/-- Witness for C4: a coroutine yielding one future resolving to 5 and then
returning 5 + 1 produces an outer future resolving to 6. -/
theorem coroutine_resolves_value_witness :
    runGen (.yield (.single (.ok (.num 5))) k5) = .resolved (.num 6) :=
  coroutine_resolves_value _ _ (.yield (.num 5) k5 (.num 6) (.ret (.num 6)))

/-- A run of the generator that fails with `e`: either the wrapped function
itself raises `e` uncaught, or an awaited future fails with `e` and the
generator resumed via `gen.throw` ends up failing with `e` (in particular
when it does not handle the thrown error at all), possibly after further
successfully awaited yields. -/
inductive FailsWith {ε : Type} : Gen ε → ε → Prop where
  | raise (e : ε) : FailsWith (.raise e) e
  | yieldFail (e : ε) (k : Except ε Val → Gen ε) :
      FailsWith (k (.error e)) e →
      FailsWith (.yield (.single (.error e)) k) e
  | yieldStep (v : Val) (k : Except ε Val → Gen ε) (e : ε) :
      FailsWith (k (.ok v)) e →
      FailsWith (.yield (.single (.ok v)) k) e

/-- Claim C5: if an awaited future fails with `E` and the generator does not
handle the error thrown into it, or the wrapped function raises an uncaught
error, the outer future fails with that error. -/
theorem coroutine_propagates_failure {ε : Type} (g : Gen ε) (e : ε)
    (h : FailsWith g e) : runGen g = .failed e := by
  induction h with
  | raise e => rfl
  | yieldFail e k _ ih => simpa [runGen, convert] using ih
  | yieldStep v k e _ ih => simpa [runGen, convert] using ih

/-- Continuation that does not handle a thrown error: `gen.throw`
re-raises it out of the generator. -/
def kPropagate : Except Unit Val → Gen Unit :=
  fun o => match o with
  | .error e => .raise e
  | .ok _ => .ret .vnone

/-- Witness for C5: a coroutine awaiting a future that fails with the unit
error, and not handling it, yields an outer future failing with it. -/
theorem coroutine_propagates_failure_witness :
    runGen (.yield (.single (.error ())) kPropagate) = .failed () :=
  coroutine_propagates_failure _ () (.yieldFail () kPropagate (.raise ()))

theorem range_map_getD {β : Type} (d : β) :
    ∀ (l : List β), (List.range l.length).map (fun i => l.getD i d) = l := by
  intro l
  induction l with
  | nil => rfl
  | cons a t ih =>
    rw [List.length_cons, List.range_succ_eq_map, List.map_cons, List.map_map]
    have hcomp : ∀ i ∈ List.range t.length,
        ((fun i => (a :: t).getD i d) ∘ Nat.succ) i = t.getD i d := by
      intro i _
      simp [Function.comp, List.getD_cons_succ]
    rw [List.map_congr_left hcomp, ih, List.getD_cons_zero]

theorem joinOutcome_all_ok {ε : Type} (vs : List Val) (hne : vs ≠ []) :
    joinOutcome (ε := ε) (vs.map Except.ok) = some (.ok (.vlist vs)) := by
  have hlen : (vs.map (Except.ok (ε := ε))).length = vs.length := by simp
  have hrne : List.range vs.length ≠ [] := by
    intro h
    have h0 : vs.length = 0 := by simpa using congrArg List.length h
    exact hne (List.length_eq_zero.mp h0)
  have hout : ∀ i ∈ List.range vs.length,
      (vs.map (Except.ok (ε := ε))).getD i (.ok .vnone) = .ok (vs.getD i .vnone) := by
    intro i hi
    have hilt : i < vs.length := List.mem_range.mp hi
    rw [List.getD_eq_getElem (vs.map Except.ok) (.ok .vnone)
          (by simpa [hlen] using hilt),
        List.getElem_map, List.getD_eq_getElem vs .vnone hilt]
  have hded : dedupKeys (List.range vs.length) = List.range vs.length :=
    dedupKeys_eq_self (List.nodup_range _)
  have hperm0 : (List.range vs.length).Perm (List.range vs.length) := List.Perm.refl _
  have hres := (runSettle_resolves (α := Val) (ε := ε) (List.range vs.length)
      (fun i => vs.getD i .vnone)
      (fun i => (vs.map Except.ok).getD i (.ok .vnone)) hout
      (List.range vs.length) (parallelInit Val ε (List.range vs.length))
      (fun _ => none) hrne (by simp [parallelInit])
      (fun f hf => hf)
      (fun f hf hnf => absurd ((mem_dedupKeys f _).mp hf) hnf)
      rfl).1
  have hmap : ((dedupKeys (List.range vs.length)).map
        (fun f => some (vs.getD f Val.vnone))).map fromOpt = vs := by
    rw [hded, List.map_map]
    have h1 : ∀ i ∈ List.range vs.length,
        (fromOpt ∘ fun f => some (vs.getD f Val.vnone)) i = vs.getD i Val.vnone :=
      fun i _ => rfl
    rw [List.map_congr_left h1, range_map_getD]
  simp only [joinOutcome, hlen, hres, hmap]

/-- Claim C6: a tuple yielded at any position (the same conversion runs for
the first yielded value in `wrapper` and for every later one in
`handle_future`) is replaced by the `parallel` join over its elements before
the completion callback is attached: the generator is resumed with the
ordered result list of the join, never with a literal tuple value. Stated
for a nonempty tuple whose element futures all resolve; the continuation
`k` is arbitrary, so the equation covers the first yield and all later
ones. -/
theorem tuple_yield_parallel_join {ε : Type} (vs : List Val)
    (k : Except ε Val → Gen ε) (hne : vs ≠ []) :
    runGen (.yield (.tup (vs.map Except.ok)) k) = runGen (k (.ok (.vlist vs))) := by
  simp [runGen, convert, joinOutcome_all_ok vs hne]

/-- Continuation for the C6 witness: returns the received value, so the
outer future resolves with whatever the generator was resumed with. -/
def kTup : Except Unit Val → Gen Unit :=
  fun o => match o with
  | .ok v => .ret v
  | .error _ => .raise ()

/-- Witness for C6: yielding the tuple of two futures resolving to 1 and 2
resumes the generator with the ordered list value, so the outer future
resolves to that list, not to a tuple. -/
theorem tuple_yield_parallel_join_witness :
    runGen (.yield (.tup [Except.ok (.num 1), Except.ok (.num 2)]) kTup)
      = .resolved (.vlist [.num 1, .num 2]) := by
  have h := tuple_yield_parallel_join (ε := Unit) [.num 1, .num 2] kTup (by simp)
  exact h.trans rfl

/-! Event loop model (`EventLoop`): the registration table `self.handlers`,
the interest masks held by the underlying tornado io_loop, readiness
dispatch, and the periodic timer handler. Dicts are insertion-ordered and
modelled as association lists looked up by first match; callbacks and
descriptors are identified by `Nat`. -/

/-- Python exceptions raised by the dict and list operations of the event
loop. -/
inductive PyErr where
  | keyError
  | valueError
deriving DecidableEq

/-- The three readiness event kinds of `EVENT_MAPPING`, in its insertion
order: read, write, error. -/
inductive Kind where
  | read
  | write
  | error
deriving DecidableEq

/-- tornado constant `IOLoop.READ` (0x001). -/
def READ : Nat := 1

/-- tornado constant `IOLoop.WRITE` (0x004). -/
def WRITE : Nat := 4

/-- tornado constant `IOLoop.ERROR` (0x018). -/
def ERROR : Nat := 24

/-- The per-descriptor value of `self.handlers[fd]`: one callback list per
event kind. -/
structure HandlerLists where
  read : List Nat
  write : List Nat
  error : List Nat
deriving DecidableEq

/-- Selecting the callback list for an event kind. -/
def getList (h : HandlerLists) : Kind → List Nat
  | .read => h.read
  | .write => h.write
  | .error => h.error

/-- Replacing the callback list for an event kind. -/
def setList (h : HandlerLists) : Kind → List Nat → HandlerLists
  | .read, l => { h with read := l }
  | .write, l => { h with write := l }
  | .error, l => { h with error := l }

/-- State of the `EventLoop`: the registration table `self.handlers` and
the per-descriptor interest masks registered with the io_loop via
`add_handler` / `remove_handler`. -/
structure EventLoopState where
  handlers : List (Nat × HandlerLists)
  ioHandlers : List (Nat × Nat)
deriving DecidableEq

/-- First-match association list lookup (dict access). -/
def lookupA {β : Type} : List (Nat × β) → Nat → Option β
  | [], _ => none
  | p :: rest, k => if p.1 = k then some p.2 else lookupA rest k

/-- In-place dict value update for an existing key, preserving its
position. -/
def setAssoc {β : Type} (m : List (Nat × β)) (k : Nat) (v : β) : List (Nat × β) :=
  m.map (fun p => if p.1 = k then (k, v) else p)

/-- The interest mask computed by `_update_events`: the union, over the
three event kinds in `EVENT_MAPPING` order, of the kind's bit when its
callback list is non-empty. -/
def eventsMask (h : HandlerLists) : Nat :=
  (if h.read ≠ [] then READ else 0) |||
  (if h.write ≠ [] then WRITE else 0) |||
  (if h.error ≠ [] then ERROR else 0)

/-- `_update_events(fd)`: remove the descriptor's io_loop handler (a
missing one is silently accepted via the caught `KeyError`), recompute the
interest mask from the three callback lists, and re-register the handler
with the new mask. `self.handlers[fd]` raises `KeyError` for an
unregistered descriptor. -/
def updateEvents (s : EventLoopState) (fd : Nat) : Except PyErr EventLoopState :=
  let io1 := s.ioHandlers.filter (fun p => p.1 != fd)
  match lookupA s.handlers fd with
  | none => .error .keyError
  | some h => .ok { s with ioHandlers := io1 ++ [(fd, eventsMask h)] }

/-- `on_read` / `on_write` / `on_error`, by kind: append the callback to
the descriptor's list for that kind, then `_update_events(fd)`. -/
def onEvent (s : EventLoopState) (kind : Kind) (fd cb : Nat) :
    Except PyErr EventLoopState :=
  match lookupA s.handlers fd with
  | none => .error .keyError
  | some h =>
    updateEvents
      { s with handlers := setAssoc s.handlers fd (setList h kind (getList h kind ++ [cb])) }
      fd

/-- `off_read` / `off_write` / `off_error`, by kind: `list.remove` the
callback from the descriptor's list (raising `ValueError` when absent),
then `_update_events(fd)`. -/
def offEvent (s : EventLoopState) (kind : Kind) (fd cb : Nat) :
    Except PyErr EventLoopState :=
  match lookupA s.handlers fd with
  | none => .error .keyError
  | some h =>
    if cb ∈ getList h kind then
      updateEvents
        { s with handlers := setAssoc s.handlers fd (setList h kind ((getList h kind).erase cb)) }
        fd
    else .error .valueError

/-- `register(fd)`: install fresh empty callback lists for the
descriptor. -/
def register (s : EventLoopState) (fd : Nat) : EventLoopState :=
  if (lookupA s.handlers fd).isSome then
    { s with handlers := setAssoc s.handlers fd ⟨[], [], []⟩ }
  else
    { s with handlers := s.handlers ++ [(fd, ⟨[], [], []⟩)] }

/-- `handles_read` / `handles_write` / `handles_error`, by kind: membership
of the callback in the descriptor's list for that kind. -/
def handles (s : EventLoopState) (kind : Kind) (fd cb : Nat) : Except PyErr Bool :=
  match lookupA s.handlers fd with
  | none => .error .keyError
  | some h => .ok (decide (cb ∈ getList h kind))

/-- Source-named wrapper for `on_read`. -/
def on_read (s : EventLoopState) (fd cb : Nat) : Except PyErr EventLoopState :=
  onEvent s .read fd cb

/-- Source-named wrapper for `off_read`. -/
def off_read (s : EventLoopState) (fd cb : Nat) : Except PyErr EventLoopState :=
  offEvent s .read fd cb

/-- Source-named wrapper for `handles_read`. -/
def handles_read (s : EventLoopState) (fd cb : Nat) : Except PyErr Bool :=
  handles s .read fd cb

theorem lookupA_filter_append {β : Type} (v : β) (fd : Nat) :
    ∀ (m : List (Nat × β)),
      lookupA (m.filter (fun p => p.1 != fd) ++ [(fd, v)]) fd = some v := by
  intro m
  induction m with
  | nil => simp [lookupA]
  | cons p rest ih =>
    by_cases hp : p.1 = fd
    · simpa [List.filter_cons, hp] using ih
    · simpa [List.filter_cons, hp, lookupA] using ih

theorem lookupA_setAssoc {β : Type} (k : Nat) (v : β) :
    ∀ (m : List (Nat × β)) (h0 : β), lookupA m k = some h0 →
      lookupA (setAssoc m k v) k = some v := by
  intro m
  induction m with
  | nil => intro h0 h; cases h
  | cons p rest ih =>
    intro h0 h
    by_cases hp : p.1 = k
    · simp [setAssoc, lookupA, hp]
    · have hstep : setAssoc (p :: rest) k v = p :: setAssoc rest k v := by
        simp [setAssoc, hp]
      rw [hstep]
      simp only [lookupA, if_neg hp]
      simp only [lookupA, if_neg hp] at h
      exact ih h0 h

theorem updateEvents_ok {s : EventLoopState} {fd : Nat} {h : HandlerLists}
    (hl : lookupA s.handlers fd = some h) :
    updateEvents s fd
      = .ok { s with
          ioHandlers := s.ioHandlers.filter (fun p => p.1 != fd) ++ [(fd, eventsMask h)] } := by
  simp [updateEvents, hl]

theorem updateEvents_mask (t s' : EventLoopState) (fd : Nat) (h : HandlerLists)
    (hl : lookupA t.handlers fd = some h)
    (hok : updateEvents t fd = .ok s') :
    lookupA s'.handlers fd = some h
      ∧ lookupA s'.ioHandlers fd = some (eventsMask h) := by
  rw [updateEvents_ok hl] at hok
  injection hok with h2
  subst h2
  exact ⟨hl, lookupA_filter_append _ fd _⟩

/-- Claim C8: after any successful `on_read`/`on_write`/`on_error` or
`off_read`/`off_write`/`off_error` call on descriptor `fd`, the interest
mask registered with the underlying io_loop for `fd` equals the union, over
the three event kinds, of the kind's bit for a non-empty callback list —
recomputed from the current handler table entry. -/
theorem interest_mask_recomputed (s s' : EventLoopState) (kind : Kind)
    (fd cb : Nat)
    (hop : onEvent s kind fd cb = .ok s' ∨ offEvent s kind fd cb = .ok s') :
    ∃ h, lookupA s'.handlers fd = some h
      ∧ lookupA s'.ioHandlers fd = some (eventsMask h) := by
  rcases hop with hop | hop
  · cases hlk : lookupA s.handlers fd with
    | none => simp only [onEvent, hlk] at hop; simp at hop
    | some h =>
      simp only [onEvent, hlk] at hop
      exact ⟨setList h kind (getList h kind ++ [cb]),
        updateEvents_mask _ s' fd _ (lookupA_setAssoc fd _ s.handlers h hlk) hop⟩
  · cases hlk : lookupA s.handlers fd with
    | none => simp only [offEvent, hlk] at hop; simp at hop
    | some h =>
      simp only [offEvent, hlk] at hop
      by_cases hcb : cb ∈ getList h kind
      · rw [if_pos hcb] at hop
        exact ⟨setList h kind ((getList h kind).erase cb),
          updateEvents_mask _ s' fd _ (lookupA_setAssoc fd _ s.handlers h hlk) hop⟩
      · rw [if_neg hcb] at hop
        cases hop

/-- Witness for C8: after registering descriptor 3, adding read callback 7
and removing it again (the state reached by `register`, `on_read`,
`off_read`), the mask registered for 3 is the recomputed union 0 — the read
bit is absent — and `handles_read` is false. -/
theorem interest_mask_recomputed_witness :
    lookupA (EventLoopState.mk [(3, ⟨[], [], []⟩)] [(3, 0)]).ioHandlers 3
        = some (eventsMask ⟨[], [], []⟩)
    ∧ handles_read (EventLoopState.mk [(3, ⟨[], [], []⟩)] [(3, 0)]) 3 7
        = .ok false := by
  obtain ⟨h, hh, hio⟩ := interest_mask_recomputed
      (EventLoopState.mk [(3, ⟨[7], [], []⟩)] [(3, 1)])
      (EventLoopState.mk [(3, ⟨[], [], []⟩)] [(3, 0)]) .read 3 7
      (Or.inr rfl)
  have hh2 : some h = some (⟨[], [], []⟩ : HandlerLists) := hh.symm.trans rfl
  have hh3 : h = ⟨[], [], []⟩ := Option.some.inj hh2
  subst hh3
  exact ⟨hio, rfl⟩

/-- `_do_on_event(fd, events)`: the readiness dispatch callback registered
with the io_loop. A descriptor absent from `self.handlers` is ignored;
otherwise, for each event kind in `EVENT_MAPPING` order whose bit is set in
`events`, every registered callback of that kind is invoked with the
descriptor as sole argument. Returns the ordered (callback, argument)
invocation list; the `Except` layer records that no dict access raises on
this path. -/
def do_on_event (s : EventLoopState) (fd : Nat) (events : Nat) :
    Except PyErr (List (Nat × Nat)) :=
  match lookupA s.handlers fd with
  | none => .ok []
  | some h =>
    .ok ((((if events &&& READ ≠ 0 then h.read else [])
        ++ (if events &&& WRITE ≠ 0 then h.write else []))
        ++ (if events &&& ERROR ≠ 0 then h.error else [])).map (fun c => (c, fd)))

/-- Claim C9: delivering a readiness notification for a descriptor absent
from the handler table (e.g. already unregistered) returns without raising
and invokes no callbacks. -/
theorem unregistered_fd_ignored (s : EventLoopState) (fd events : Nat)
    (h : lookupA s.handlers fd = none) :
    do_on_event s fd events = .ok [] := by
  simp [do_on_event, h]

/-- Witness for C9: a loop with an empty handler table silently ignores a
notification for descriptor 5 with all event bits set. -/
theorem unregistered_fd_ignored_witness :
    do_on_event (EventLoopState.mk [] []) 5 29 = .ok [] :=
  unregistered_fd_ignored (EventLoopState.mk [] []) 5 29 rfl

/-! Periodic timer model (`_periodic_handler`). -/

/-- Python values a periodic callback may return; enough to distinguish
Python equality-with-`False` from Python falsiness. -/
inductive PyVal where
  | vbool (b : Bool)
  | vint (n : Int)
  | vnone
deriving DecidableEq

/-- Python `result == False`, the test `_periodic_handler` actually
applies: `False == False` and `0 == False` hold, `None == False` does
not. -/
def eqFalse : PyVal → Bool
  | .vbool b => !b
  | .vint n => n == 0
  | .vnone => false

/-- Python falsiness: `False`, `0` and `None` are all falsy. -/
def pyFalsy : PyVal → Bool
  | .vbool b => !b
  | .vint n => n == 0
  | .vnone => true

/-- One `_periodic_handler` invocation for the callback's `k`-th call: the
next firing is scheduled up front, the callback runs, and in `finally` the
scheduled handle is removed exactly when `result == False` — `result` keeps
its initial `False` when the callback raises. Returns whether the next
firing survives. -/
def periodicStep {ε : Type} (cb : Nat → Except ε PyVal) (k : Nat) : Bool :=
  match cb k with
  | .ok v => !(eqFalse v)
  | .error _ => false

/-- Whether the callback's `k`-th invocation (0-indexed) occurs, assuming
the loop keeps running and `unschedule` is not called: the first firing
occurs one interval after scheduling, and each later one exactly when the
previous invocation's rescheduling survived. -/
def fires {ε : Type} (cb : Nat → Except ε PyVal) : Nat → Bool
  | 0 => true
  | k + 1 => fires cb k && periodicStep cb k

/-- A periodic callback that always returns `None`, a falsy value. -/
def cbNone : Nat → Except Unit PyVal := fun _ => .ok .vnone

/-- Counterexample to C7 as stated: a periodic callback returning the falsy
value `None` on its first invocation is nevertheless invoked again, because
`_periodic_handler` tests `result == False`, which `None` fails. -/
theorem periodic_falsy_counterexample :
    cbNone 0 = .ok .vnone ∧ pyFalsy .vnone = true ∧ fires cbNone 1 = true :=
  ⟨rfl, rfl, rfl⟩

/-- Claim C7 as amended: a periodic callback keeps firing every interval
while each invocation returns a value not equal to `False` under Python
`==`; after an invocation returning a value equal to `False` (such as
`False` or `0`) or raising an exception, it is never invoked again. -/
theorem periodic_reschedule_policy {ε : Type} (cb : Nat → Except ε PyVal)
    (k : Nat) :
    ((∀ i, i < k → periodicStep cb i = true) → fires cb k = true)
    ∧ (periodicStep cb k = false → ∀ j, k < j → fires cb j = false) := by
  constructor
  · induction k with
    | zero => intro _; rfl
    | succ m ih =>
      intro hall
      have h1 : fires cb m = true := ih (fun i hi => hall i (Nat.lt_succ_of_lt hi))
      have h2 : periodicStep cb m = true := hall m (Nat.lt_succ_self m)
      simp [fires, h1, h2]
  · intro hstop j
    induction j with
    | zero => intro hkj; exact absurd hkj (Nat.not_lt_zero k)
    | succ m ih =>
      intro hkj
      by_cases hm : k < m
      · have h1 := ih hm
        simp [fires, h1]
      · have hkm : k = m := by omega
        subst hkm
        simp [fires, hstop]

/-- A periodic callback returning `True` twice, then `False` on its third
invocation. -/
def cbStop : Nat → Except Unit PyVal :=
  fun k => if k < 2 then .ok (.vbool true) else .ok (.vbool false)

/-- Witness for the amended C7: `cbStop` is invoked a third time (the first
two invocations returned `True`) but, returning `False` on its third
invocation, is never invoked a fourth time. -/
theorem periodic_reschedule_policy_witness :
    fires cbStop 2 = true ∧ fires cbStop 3 = false := by
  refine ⟨(periodic_reschedule_policy cbStop 2).1 ?_,
    (periodic_reschedule_policy cbStop 2).2 (by decide) 3 (by decide)⟩
  decide
